import Mathlib

/-!
# uSTL binary output stream, queue adapter and exception size

A shallow embedding of `include/mostream.h`, `include/uqueue.h` and
`include/uexception.h`.

Conventions of the embedding:

* a byte is a `Fin 256`; the linked block of a stream is the list of its bytes,
  so `size()` is the length of that list;
* `size_t`, `uoff_t`, `streamsize` and `streamoff` are unsigned machine words of
  `w` bits: values are naturals and every C++ `+` and `-` on them is taken
  modulo `2 ^ w` (`wadd`, `wsub`);
* `assert (c)` with `c` false is the outcome `assertFail`;
* the build switch `WANT_BSTREAM_EXCEPTIONS` is the boolean `reporting`;
* a call of `ios_base::overrun (op, type, n, pos, rem)` is recorded with its five
  arguments as an `OverrunReport`.
-/

namespace ustl

/-- One byte of memory. -/
abbrev Byte := Fin 256

/-! ## Machine words -/

/-- Unsigned addition on `w`-bit words. -/
def wadd (w a b : Nat) : Nat := (a + b) % 2 ^ w

/-- Unsigned subtraction on `w`-bit words (wraps below zero). -/
def wsub (w a b : Nat) : Nat := (a + 2 ^ w - b) % 2 ^ w

/-- Conversion of a signed integer to an unsigned `w`-bit word. -/
def toWord (w : Nat) (x : Int) : Nat := (x % (2 : Int) ^ w).toNat

/-! ## memlink -/

/-- Modelled from the spec: `memlink.h` is not part of the sources. A link is the
"data pointer, size" capability of the spec: the address of the block and the
bytes found there; `size()` is the number of those bytes. -/
structure memlink where
  /-- Address of the first byte, `data()` and `begin()`. -/
  data : Nat
  /-- Contents of the linked block. -/
  bytes : List Byte
deriving DecidableEq, Repr

/-- Number of linked bytes, `memlink::size()`. -/
def memlink.size (l : memlink) : Nat := l.bytes.length

/-- Modelled from the spec: `memlink::writable_size()` is not part of the sources;
the writable size of a link is its size. -/
def memlink.writable_size (l : memlink) : Nat := l.size

/-- The libc `memcpy (dst + off, src, n)`, one byte at a time: byte `i` of `src`
goes to index `off + i` of `dst`. A call that would leave either block is
undefined in C; here such a store changes nothing. -/
def memcpy : List Byte → Nat → List Byte → Nat → List Byte
  | dst, _, _, 0 => dst
  | dst, _, [], _ + 1 => dst
  | dst, off, b :: src, n + 1 => memcpy (dst.set off b) (off + 1) src n

/-! ## ostream -/

/-- Class `ostream`: a `memlink` and the write position `_pos`. -/
structure ostream extends memlink where
  /-- Current write position. -/
  pos : Nat
deriving DecidableEq, Repr

/-- The five arguments of one call of `ios_base::overrun`. -/
structure OverrunReport where
  /-- Name of the operation. -/
  op : String
  /-- Name of the type written. -/
  type : String
  /-- Requested amount. -/
  n : Nat
  /-- Position of the stream at the call. -/
  pos : Nat
  /-- Value passed as the remaining capacity. -/
  rem : Nat
deriving DecidableEq, Repr

/-- How a call of a `void` member of `ostream` ends. -/
inductive Outcome where
  /-- The call ran to its end; the stream afterwards. -/
  | ok (s : ostream)
  /-- The call went to `overrun` and returned early; the stream afterwards. -/
  | overrun (r : OverrunReport) (s : ostream)
  /-- An `assert` failed. -/
  | assertFail
deriving DecidableEq, Repr

/-- The stream a call leaves behind, when there is one. -/
def Outcome.state? : Outcome → Option ostream
  | .ok s => some s
  | .overrun _ s => some s
  | .assertFail => none

/-- The overrun report of a call, when it made one. -/
def Outcome.report? : Outcome → Option OverrunReport
  | .overrun r _ => some r
  | _ => none

namespace ostream

/-- Constructor `ostream (void)`: empty link, position 0. -/
def mk0 : ostream := ⟨⟨0, []⟩, 0⟩

/-- Constructor `ostream (void* p, streamsize n)`; `blk` lists the `n` bytes at `p`. -/
def mkPN (p : Nat) (blk : List Byte) : ostream := ⟨⟨p, blk⟩, 0⟩

/-- Constructor `ostream (const memlink& source)`. -/
def mkLink (source : memlink) : ostream := ⟨source, 0⟩

/-- Member `size()`, inherited from `memlink`. -/
def size (s : ostream) : Nat := s.bytes.length

/-- Member `remaining()`: `size() - pos()` on machine words. -/
def remaining (w : Nat) (s : ostream) : Nat := wsub w s.size s.pos

/-- Member `aligned (grain)`: `pos() % grain == 0`. -/
def aligned (s : ostream) (grain : Nat) : Bool := s.pos % grain == 0

/-- Member `SetPos (newPos)`. -/
def SetPos (s : ostream) (newPos : Nat) : ostream := { s with pos := newPos }

/-- Member `stream_size()`: `pos()`. -/
def stream_size (s : ostream) : Nat := s.pos

/-- Member `tellp()`: `pos()`. -/
def tellp (s : ostream) : Nat := s.pos

/-- What `verify_remaining` hands back: its boolean and the call of `overrun`
it made, if any. -/
structure Verified where
  /-- The returned boolean. -/
  enough : Bool
  /-- The report, when `overrun` was called. -/
  report : Option OverrunReport
  /-- The stream afterwards. -/
  s : ostream
deriving DecidableEq, Repr

/-- Member `verify_remaining (op, type, n)`. -/
def verify_remaining (w : Nat) (s : ostream) (op type : String) (n : Nat) : Verified :=
  let rem := s.remaining w
  let enough := decide (n ≤ rem)
  if !enough then ⟨enough, some ⟨op, type, n, s.pos, rem⟩, s⟩
  else ⟨enough, none, s⟩

/-- Member `seek (newPos)`. -/
def seek (reporting : Bool) (s : ostream) (newPos : Nat) : Outcome :=
  if reporting then
    if newPos > s.size then .overrun ⟨"seekp", "byte", newPos, s.pos, s.size⟩ s
    else .ok (s.SetPos newPos)
  else
    if newPos ≤ s.size then .ok (s.SetPos newPos)
    else .assertFail

/-- Member `iseek (newPos)`: seeks to `distance (begin(), newPos)`. -/
def iseek (w : Nat) (reporting : Bool) (s : ostream) (newPos : Nat) : Outcome :=
  s.seek reporting (wsub w newPos s.data)

/-- The enumeration `ios_base::seekdir`. -/
inductive seekdir where
  | beg
  | cur
  | end_
deriving DecidableEq, Repr

/-- Member `seekp (p, d)`; `p` is a signed `off_t`. -/
def seekp (w : Nat) (reporting : Bool) (s : ostream) (p : Int) (d : seekdir) : Outcome :=
  match d with
  | .beg => s.seek reporting (toWord w p)
  | .cur => s.seek reporting (toWord w ((s.pos : Int) + p))
  | .end_ => s.seek reporting (toWord w ((s.size : Int) - p))

/-- Member `skip (nBytes)`: `seek (pos() + nBytes)`. -/
def skip (w : Nat) (reporting : Bool) (s : ostream) (nBytes : Nat) : Outcome :=
  s.seek reporting (wadd w s.pos nBytes)

/-- Member `write (buffer, n)`; `buffer` lists the bytes found at the pointer. -/
def write (w : Nat) (reporting : Bool) (s : ostream) (buffer : List Byte) (n : Nat) : Outcome :=
  if reporting then
    let v := s.verify_remaining w "write" "binary data" n
    if !v.enough then
      match v.report with
      | some r => .overrun r v.s
      | none => .ok v.s
    else
      .ok { v.s with bytes := memcpy v.s.bytes v.s.pos buffer n, pos := wadd w v.s.pos n }
  else
    if s.remaining w ≥ n then
      .ok { s with bytes := memcpy s.bytes s.pos buffer n, pos := wadd w s.pos n }
    else .assertFail

/-- The predicate `0 ≤ pos ≤ size` on a stream. -/
def Inv (s : ostream) : Prop := 0 ≤ s.pos ∧ s.pos ≤ s.size

instance decidableInv (s : ostream) : Decidable s.Inv :=
  inferInstanceAs (Decidable (0 ≤ s.pos ∧ s.pos ≤ s.size))

/-- A value type `T` as `iwrite` sees it. The headers that define these three
quantities (`typeinfo.h`, `strmsize.h`) are not part of the sources, so they are
parameters of the type; an alignment is never 0. -/
structure PodType where
  /-- The string `typeid (v).name()`. -/
  name : String
  /-- The number `sizeof (T)`. -/
  size : Nat
  /-- The number `stream_align_of (v)`. -/
  align : Nat
  /-- Alignments are positive. -/
  align_pos : 0 < align

/-- Member `iwrite (v)` for a value of type `T`; `v` lists the bytes of the object
`v` (its bit pattern), of which the assignment through the cast pointer stores
`sizeof (T)`. -/
def iwrite (w : Nat) (reporting : Bool) (s : ostream) (T : PodType) (v : List Byte) : Outcome :=
  if !s.aligned T.align then .assertFail
  else if reporting then
    let r := s.verify_remaining w "write" T.name T.size
    if !r.enough then
      match r.report with
      | some e => .overrun e r.s
      | none => .ok r.s
    else
      .ok ({ r.s with bytes := memcpy r.s.bytes r.s.pos v T.size }.SetPos (wadd w r.s.pos T.size))
  else
    if s.remaining w ≥ T.size then
      .ok ({ s with bytes := memcpy s.bytes s.pos v T.size }.SetPos (wadd w s.pos T.size))
    else .assertFail

/-- Modelled from the spec: `memlink::relink (p, n)` is not part of the sources; it
rebinds the link to the region of `n` bytes at `p`. `blk` lists those `n` bytes. -/
def memlinkRelink (_l : memlink) (p : Nat) (blk : List Byte) : memlink := ⟨p, blk⟩

/-- Member `relink (p, n)`: relinks the `memlink` part and sets `_pos = 0`;
`blk` lists the `n` bytes at `p`. -/
def relink (s : ostream) (p : Nat) (blk : List Byte) : ostream :=
  { tomemlink := memlinkRelink s.tomemlink p blk, pos := 0 }

/-- Member `relink (memlink& l)`: `relink (l.data(), l.writable_size())`. -/
def relinkLink (s : ostream) (l : memlink) : ostream :=
  s.relink l.data (l.bytes.take l.writable_size)

/-- Modelled from the spec: the helper `Align (n, grain)` is not part of the
sources; it is the round-up of `n` to the next multiple of `grain` (`n` itself
when it is one), returned as a machine word. -/
def Align (w n grain : Nat) : Nat := ((n + grain - 1) / grain * grain) % 2 ^ w

/-- Member `align_size (grain)`: `Align (pos(), grain) - pos()`. -/
def align_size (w : Nat) (s : ostream) (grain : Nat) : Nat :=
  wsub w (Align w s.pos grain) s.pos

/-- Member `write (ostream& os) const`: `os.write (begin(), pos())`. The two
streams are two objects over blocks that do not overlap; the member is `const`,
so the source stream `s` is handed back as it was, next to the outcome for
`os`. -/
def write_ostream (w : Nat) (reporting : Bool) (s os : ostream) : ostream × Outcome :=
  (s, os.write w reporting s.bytes s.pos)

/-- The target of `seekp (p, d)` in the words of the spec: `p` from the
beginning, `pos + p` from the current position, `size - p` from the end. -/
def seekp_target (s : ostream) (p : Int) : seekdir → Int
  | .beg => p
  | .cur => (s.pos : Int) + p
  | .end_ => (s.size : Int) - p

/-- A value handed to `operator<<`, split by `numeric_limits <T>::is_integral`. -/
inductive StreamValue where
  /-- An integral type `T` and the object bytes of the value. -/
  | integral (T : PodType) (v : List Byte)
  /-- Any other type, which exposes the member `write (os)`. -/
  | object (write : ostream → Outcome)

/-- The functor `integral_object_writer <T>`: `os.iwrite (v)`. -/
def integral_object_writer (w : Nat) (reporting : Bool) (os : ostream) (T : PodType)
    (v : List Byte) : Outcome :=
  os.iwrite w reporting T v

/-- The functor `object_writer <T>`: `v.write (os)`. -/
def object_writer (os : ostream) (write : ostream → Outcome) : Outcome := write os

/-- The generic `operator<< (os, v)`: selects the writer by `is_integral`. -/
def op_shl (w : Nat) (reporting : Bool) (os : ostream) : StreamValue → Outcome
  | .integral T v => integral_object_writer w reporting os T v
  | .object write => object_writer os write

/-- The chain `os << v0 << v1 << ...`; it ends at the first write that does not
run to its end. -/
def op_shl_chain (w : Nat) (reporting : Bool) : ostream → List StreamValue → Outcome
  | os, [] => .ok os
  | os, v :: vs =>
    match op_shl w reporting os v with
    | .ok os1 => op_shl_chain w reporting os1 vs
    | o => o

/-- The calls `os.iwrite (v0); os.iwrite (v1); ...` for values of one type `T`;
the sequence ends at the first call that does not run to its end. -/
def iwrite_each (w : Nat) (reporting : Bool) (T : PodType) : ostream → List (List Byte) → Outcome
  | os, [] => .ok os
  | os, v :: vs =>
    match os.iwrite w reporting T v with
    | .ok os1 => iwrite_each w reporting T os1 vs
    | o => o

end ostream

/-! ## queue -/

/-- Class `queue <T, vector <T>>`: the storage vector and the index of the front. -/
structure queue (α : Type) where
  /-- Where the data actually is. -/
  _storage : List α
  /-- Index of the element returned by next pop. -/
  _front : Nat
deriving DecidableEq, Repr

namespace queue

variable {α : Type}

/-- Constructor `queue (void)`. -/
def mk0 : queue α := ⟨[], 0⟩

/-- Constructor `queue (const container_type& s)`. -/
def ofContainer (s : List α) : queue α := ⟨s, 0⟩

/-- Constructor `queue (const queue& s)`. -/
def copy (s : queue α) : queue α := ⟨s._storage, 0⟩

/-- Member `size()`: `_storage.size() - _front` on machine words. -/
def size (w : Nat) (q : queue α) : Nat := wsub w q._storage.length q._front

/-- Member `empty()`: `!size()`. -/
def empty (w : Nat) (q : queue α) : Bool := q.size w == 0

/-- Member `front()`: `_storage [_front]`; `none` when the index is out of range. -/
def front (q : queue α) : Option α := q._storage[q._front]?

/-- Member `back()`: `_storage.back()`. -/
def back (q : queue α) : Option α := q._storage.getLast?

/-- Member `push (v)`: `_storage.push_back (v)`. -/
def push (q : queue α) (v : α) : queue α := { q with _storage := q._storage ++ [v] }

/-- Member `emplace (args...)`: `_storage.emplace_back (args...)`; `v` is the value
built from the arguments. -/
def emplace (q : queue α) (v : α) : queue α := { q with _storage := q._storage ++ [v] }

/-- Member `pop()`. `erase (begin(), n)` of the vector removes its first `n`
elements. -/
def pop (w : Nat) (q : queue α) : queue α :=
  let front1 := wadd w q._front 1
  if front1 > q._storage.length / 2 then
    { _storage := q._storage.drop front1, _front := 0 }
  else
    { q with _front := front1 }

/-- The predicate `_front ≤ _storage.size() / 2`: the popped part is at most half
of the storage. -/
def HalfInv (q : queue α) : Prop := q._front ≤ q._storage.length / 2

instance decidableHalfInv (q : queue α) : Decidable q.HalfInv :=
  inferInstanceAs (Decidable (q._front ≤ q._storage.length / 2))

/-- The elements of `_storage` from index `_front` onward. -/
def contents (q : queue α) : List α := q._storage.drop q._front

/-- Pushes the values of a list, first to last. -/
def pushAll (q : queue α) (vs : List α) : queue α := vs.foldl push q

/-- Takes `front()` and then calls `pop()`, `n` times over; returns the values
taken, in order, and the queue left. Stops early at an empty queue. -/
def takeN (w : Nat) : Nat → queue α → List α × queue α
  | 0, q => ([], q)
  | n + 1, q =>
    match q.front with
    | none => ([], q)
    | some v => (v :: (takeN w n (q.pop w)).1, (takeN w n (q.pop w)).2)

end queue

/-! ## exception -/

/-- Class `CBacktrace`, its data members. -/
structure CBacktrace where
  /-- Addresses of each function on the stack. -/
  _addresses : List Nat
  /-- Symbols corresponding to each address, when resolved. -/
  _symbols : Option (List Byte)
  /-- Number of addresses in `_addresses`. -/
  _nFrames : Nat
  /-- Size of `_symbols`. -/
  _symbolsSize : Nat
deriving DecidableEq, Repr

/-- Enumerator `xfmt_Exception`. -/
def xfmt_Exception : Nat := 0

/-- Enumerator `xfmt_BadAlloc`. -/
def xfmt_BadAlloc : Nat := 1

/-- Class `exception`, its data members. -/
structure exception where
  /-- Backtrace of the throw point. -/
  _backtrace : CBacktrace
  /-- Format of the exception data, an `xfmt_t`. -/
  _format : Nat
deriving DecidableEq, Repr

namespace exception

/-- The number `sizeof (uint32_t)`; `xfmt_t` is `uint32_t`. -/
def sizeof_uint32 : Nat := 4

/-- Constructor `exception (void)`; `bt` is the backtrace that `CBacktrace()`
captures. -/
def mk0 (bt : CBacktrace) : exception := ⟨bt, xfmt_Exception⟩

/-- Member `format()`. -/
def format (e : exception) : Nat := e._format

/-- Member `backtrace()`. -/
def backtrace (e : exception) : CBacktrace := e._backtrace

/-- Member `set_format (fmt)`. -/
def set_format (e : exception) (fmt : Nat) : exception := { e with _format := fmt }

/-- Member `stream_size()`:
`sizeof (_format) + sizeof (uint32_t) + _backtrace.stream_size()` in `size_t`.
`CBacktrace::stream_size` is only declared in the sources, so it is the
parameter `btSize`. -/
def stream_size (w : Nat) (btSize : CBacktrace → Nat) (e : exception) : Nat :=
  wadd w (wadd w sizeof_uint32 sizeof_uint32) (btSize e._backtrace)

end exception

/-- The concrete kinds of exception in `uexception.h` that add no data member. -/
inductive ExceptionKind where
  /-- Class `exception` itself. -/
  | exception
  /-- Class `bad_cast`. -/
  | bad_cast
  /-- Class `bad_typeid`. -/
  | bad_typeid
deriving DecidableEq, Repr

/-- An exception object of one of these kinds: its dynamic type and its
`exception` base part. -/
structure ExceptionObject where
  /-- The concrete class of the object. -/
  kind : ExceptionKind
  /-- The data members, all in the base class. -/
  base : exception
deriving DecidableEq, Repr

namespace ExceptionObject

/-- Constructors `exception (void)`, `bad_cast (void)` and `bad_typeid (void)`:
the two derived ones run `exception()` and an empty body. `bt` is the backtrace
captured. -/
def default (k : ExceptionKind) (bt : CBacktrace) : ExceptionObject :=
  match k with
  | .exception => ⟨.exception, exception.mk0 bt⟩
  | .bad_cast => ⟨.bad_cast, exception.mk0 bt⟩
  | .bad_typeid => ⟨.bad_typeid, exception.mk0 bt⟩

/-- Virtual member `what()`. -/
def what (e : ExceptionObject) : String :=
  match e.kind with
  | .exception => "error"
  | .bad_cast => "bad cast"
  | .bad_typeid => "bad typeid"

/-- Member `format()`, inherited from `exception`. -/
def format (e : ExceptionObject) : Nat := e.base.format

end ExceptionObject

end ustl

/-! ## Concrete inputs -/

namespace ustl

namespace ostream

/-- A stream over the four bytes `9 9 9 9` with the cursor at 1. -/
def ex4 : ostream := ⟨⟨100, [9, 9, 9, 9]⟩, 1⟩

/-- A fresh stream over four zero bytes. -/
def zero4 : ostream := mkPN 100 [0, 0, 0, 0]

/-- A fresh stream over sixteen zero bytes. -/
def zero16 : ostream := mkPN 64 (List.replicate 16 0)

/-- A 4-byte integer type aligned to 4. -/
def int32 : PodType := ⟨"i", 4, 4, by decide⟩

/-- An 8-byte integer type aligned to 8. -/
def int64 : PodType := ⟨"x", 8, 8, by decide⟩

/-- A stream over four zero bytes with the cursor at 2. -/
def zero4at2 : ostream := ⟨⟨100, [0, 0, 0, 0]⟩, 2⟩

/-- A stream over eight zero bytes with the cursor at 4. -/
def zero8at4 : ostream := ⟨⟨100, [0, 0, 0, 0, 0, 0, 0, 0]⟩, 4⟩

/-- A stream over the bytes `1 2 3 4 5 6` with the cursor at 3. -/
def src6at3 : ostream := ⟨⟨300, [1, 2, 3, 4, 5, 6]⟩, 3⟩

/-- A stream over eight zero bytes with the cursor at 5. -/
def zero8at5 : ostream := ⟨⟨100, [0, 0, 0, 0, 0, 0, 0, 0]⟩, 5⟩

/-- A 2-byte integer type aligned to 2. -/
def int16 : PodType := ⟨"s", 2, 2, by decide⟩

/-- A link to the three bytes `7 8 9` at address 200. -/
def link3 : memlink := ⟨200, [7, 8, 9]⟩

/-- The stream `zero16` after a 4-byte integer was written at offset 0. -/
def zero16at4 : ostream := ⟨⟨64, [1, 2, 3, 4, 0, 0, 0, 0, 0, 0, 0, 0, 0, 0, 0, 0]⟩, 4⟩

end ostream

/-- The queue reached from the empty one by pushing 1, 2, 3, 4 and popping once. -/
def queue1234popped : queue Nat := (queue.pushAll queue.mk0 [1, 2, 3, 4]).pop 32

/-- A queue holding 6 and 7 behind one element already popped. -/
def queueEx : queue Nat := ⟨[5, 6, 7], 1⟩

/-- A backtrace of two frames without symbols. -/
def btEx : CBacktrace := ⟨[4096, 8192], none, 2, 0⟩

/-- Modelled from the spec: `CBacktrace::stream_size` is only declared in the
sources. The size of the backtrace block of the wire layout on a machine with
4-byte pointers: a `uint32` frame count, the frame addresses, a `uint32` symbol
blob size and the blob. -/
def btSize32 (bt : CBacktrace) : Nat := 4 + 4 * bt._nFrames + 4 + bt._symbolsSize

end ustl

/-! # Theorems -/

namespace ustl

/-! ## Machine words -/

theorem wsub_of_le {w a b : Nat} (hb : b ≤ a) (ha : a < 2 ^ w) : wsub w a b = a - b := by
  unfold wsub
  have h1 : a + 2 ^ w - b = (a - b) + 2 ^ w := by omega
  rw [h1, Nat.add_mod_right, Nat.mod_eq_of_lt (by omega)]

theorem wsub_le {w a b : Nat} (hb : b ≤ a) : wsub w a b ≤ a - b := by
  unfold wsub
  generalize 2 ^ w = m
  have h1 : a + m - b = (a - b) + m := by omega
  rw [h1, Nat.add_mod_right]
  exact Nat.mod_le _ _

theorem wadd_le (w a b : Nat) : wadd w a b ≤ a + b := Nat.mod_le _ _

theorem wadd_of_lt {w a b : Nat} (h : a + b < 2 ^ w) : wadd w a b = a + b := by
  unfold wadd
  exact Nat.mod_eq_of_lt h

/-! ## memcpy -/

theorem length_memcpy (dst : List Byte) (off : Nat) (src : List Byte) (n : Nat) :
    (memcpy dst off src n).length = dst.length := by
  induction n generalizing dst off src with
  | zero => simp [memcpy]
  | succ n ih =>
    cases src with
    | nil => simp [memcpy]
    | cons b src => simp [memcpy, ih]

theorem getElem?_memcpy_outside (dst : List Byte) (off : Nat) (src : List Byte) (n i : Nat)
    (h : i < off ∨ off + n ≤ i) : (memcpy dst off src n)[i]? = dst[i]? := by
  induction n generalizing dst off src with
  | zero => simp [memcpy]
  | succ n ih =>
    cases src with
    | nil => simp [memcpy]
    | cons b src =>
      have hne : off ≠ i := by omega
      simp only [memcpy]
      rw [ih (dst.set off b) (off + 1) src (by omega), List.getElem?_set_ne hne]

theorem getElem?_memcpy_inside (dst : List Byte) (off : Nat) (src : List Byte) (n j : Nat)
    (hj : j < n) (hsrc : n ≤ src.length) (hdst : off + n ≤ dst.length) :
    (memcpy dst off src n)[off + j]? = src[j]? := by
  induction n generalizing dst off src j with
  | zero => omega
  | succ n ih =>
    cases src with
    | nil => simp at hsrc
    | cons b src =>
      simp only [memcpy]
      cases j with
      | zero =>
        rw [getElem?_memcpy_outside _ _ _ _ _ (Or.inl (by omega))]
        simp only [Nat.add_zero, List.getElem?_cons_zero]
        rw [List.getElem?_set_self (by omega)]
      | succ j =>
        have h2 : off + (j + 1) = (off + 1) + j := by omega
        rw [h2, ih (dst.set off b) (off + 1) src j (by omega)
          (by simpa using hsrc) (by simp only [List.length_set]; omega)]
        simp

namespace ostream

theorem remaining_eq (w : Nat) (s : ostream) (hsz : s.size < 2 ^ w) (hpos : s.pos ≤ s.size) :
    s.remaining w = s.size - s.pos :=
  wsub_of_le hpos hsz

/-- C1: in either build, for a stream with `pos ≤ size` (the size being a machine
word) and a buffer of `n` bytes with `n ≤ remaining()`, where `remaining()` is
`size - pos`, `write (buffer, n)` succeeds; afterwards the bytes at
`[pos, pos + n)` are those of the buffer, every byte outside that range is
unchanged, the size and the data pointer are unchanged and the cursor is
`pos + n`. -/
theorem write_within_remaining (w : Nat) (reporting : Bool) (s : ostream)
    (buffer : List Byte) (n : Nat)
    (hsz : s.size < 2 ^ w) (hpos : s.pos ≤ s.size)
    (hbuf : buffer.length = n) (hn : n ≤ s.remaining w) :
    s.remaining w = s.size - s.pos ∧
    ∃ s1, s.write w reporting buffer n = .ok s1 ∧
      (∀ i, i < n → s1.bytes[s.pos + i]? = buffer[i]?) ∧
      (∀ i, i < s.pos ∨ s.pos + n ≤ i → s1.bytes[i]? = s.bytes[i]?) ∧
      s1.size = s.size ∧ s1.data = s.data ∧ s1.pos = s.pos + n := by
  have hrem := remaining_eq w s hsz hpos
  refine ⟨hrem, ?_⟩
  rw [hrem] at hn
  have hsz1 : s.bytes.length < 2 ^ w := hsz
  have hpos1 : s.pos ≤ s.bytes.length := hpos
  have hadd : wadd w s.pos n = s.pos + n := wadd_of_lt (by simp only [size] at hn; omega)
  refine ⟨{ s with bytes := memcpy s.bytes s.pos buffer n, pos := s.pos + n }, ?_, ?_, ?_, ?_, rfl, rfl⟩
  · cases reporting
    · simp [write, hrem, hn, hadd]
    · simp [write, verify_remaining, hrem, hn, hadd]
  · intro i hi
    exact getElem?_memcpy_inside _ _ _ _ _ hi (by omega) (by simp only [size] at hn; omega)
  · intro i hi
    exact getElem?_memcpy_outside _ _ _ _ _ hi
  · simp [size, length_memcpy]

/-- Witness of C1: two bytes written at cursor 1 of a four-byte region. -/
theorem write_within_remaining_witness :
    (ex4.size < 2 ^ 32 ∧ ex4.pos ≤ ex4.size ∧ ([1, 2] : List Byte).length = 2 ∧
      2 ≤ ex4.remaining 32) ∧
    ex4.write 32 true [1, 2] 2 = .ok ⟨⟨100, [9, 1, 2, 9]⟩, 3⟩ := by
  have h := write_within_remaining 32 true ex4 [1, 2] 2 (by decide) (by decide) (by decide)
    (by decide)
  refine ⟨⟨by decide, by decide, by decide, by decide⟩, ?_⟩
  obtain ⟨_, s1, hw, _⟩ := h
  rw [hw]
  exact hw.symm.trans (by decide)

/-- C2: in the reporting build, for a stream with `pos ≤ size`,
`write (buffer, n)` reports an overrun exactly when `n > remaining()`; the report
then carries the requested size `n`, the position `pos` and the remaining
capacity `size - pos` (and the stream is as before); `verify_remaining` returns
true exactly when `n ≤ remaining()`. -/
theorem write_overrun_report (w : Nat) (s : ostream) (buffer : List Byte) (n : Nat)
    (hsz : s.size < 2 ^ w) (hpos : s.pos ≤ s.size) :
    ((∃ r s1, s.write w true buffer n = .overrun r s1) ↔ n > s.remaining w) ∧
    (n > s.remaining w →
      s.write w true buffer n
        = .overrun ⟨"write", "binary data", n, s.pos, s.size - s.pos⟩ s) ∧
    (∀ op type : String, (s.verify_remaining w op type n).enough = true ↔ n ≤ s.remaining w) := by
  have hrem := remaining_eq w s hsz hpos
  refine ⟨?_, ?_, ?_⟩
  · by_cases hn : n ≤ s.remaining w
    · simp [write, verify_remaining, hn]
    · simp [write, verify_remaining, hn]
      omega
  · intro hn
    have hn1 : s.size - s.pos < n := by omega
    simp [write, verify_remaining, hn1, hrem]
  · intro op type
    by_cases hn : n ≤ s.remaining w <;> simp [verify_remaining, hn]

/-- Witness of C2: a 4-byte region at cursor 0 asked to write 8 bytes reports
remaining 4 and requested 8. -/
theorem write_overrun_report_witness :
    (zero4.size < 2 ^ 32 ∧ zero4.pos ≤ zero4.size ∧ 8 > zero4.remaining 32) ∧
    zero4.write 32 true [1, 2, 3, 4, 5, 6, 7, 8] 8
      = .overrun ⟨"write", "binary data", 8, 0, 4⟩ zero4 :=
  ⟨⟨by decide, by decide, by decide⟩,
    (write_overrun_report 32 zero4 [1, 2, 3, 4, 5, 6, 7, 8] 8 (by decide) (by decide)).2.1
      (by decide)⟩

/-- C3: for every value type `T` and every stream whose cursor is not a multiple
of the stream alignment of `T`, `iwrite` ends in the failed assertion, in the
reporting build and in the asserting build alike, whatever the remaining
capacity; it never returns as a successful write. -/
theorem iwrite_misaligned_asserts (w : Nat) (reporting : Bool) (s : ostream) (T : PodType)
    (v : List Byte) (h : s.pos % T.align ≠ 0) :
    s.iwrite w reporting T v = .assertFail := by
  simp [iwrite, aligned, h]

/-- Witness of C3: over a 16-byte region a 4-byte integer written at offset 0
moves the cursor to 4, and an 8-byte integer written there fails the assertion
in both builds although 12 bytes remain. -/
theorem iwrite_misaligned_asserts_witness :
    zero16.iwrite 32 true int32 [1, 2, 3, 4] = .ok zero16at4 ∧
    zero16at4.pos % int64.align ≠ 0 ∧ int64.size ≤ zero16at4.remaining 32 ∧
    zero16at4.iwrite 32 true int64 [1, 2, 3, 4, 5, 6, 7, 8] = .assertFail ∧
    zero16at4.iwrite 32 false int64 [1, 2, 3, 4, 5, 6, 7, 8] = .assertFail :=
  ⟨by decide, by decide, by decide,
    iwrite_misaligned_asserts 32 true zero16at4 int64 [1, 2, 3, 4, 5, 6, 7, 8] (by decide),
    iwrite_misaligned_asserts 32 false zero16at4 int64 [1, 2, 3, 4, 5, 6, 7, 8] (by decide)⟩

/-- C4: in either build, for a value `v` of a fixed-size type `T` given by its
`sizeof (T)` bytes and a stream with `pos ≤ size`, `pos % align (T) = 0` and
`sizeof (T) ≤ remaining()`, `iwrite (v)` succeeds; afterwards the bytes at
`[pos, pos + sizeof (T))` are exactly the bytes of `v`, every other byte of the
region is unchanged, the size and the data pointer are unchanged and the cursor
is `pos + sizeof (T)`. -/
theorem iwrite_aligned_stores (w : Nat) (reporting : Bool) (s : ostream) (T : PodType)
    (v : List Byte)
    (hsz : s.size < 2 ^ w) (hpos : s.pos ≤ s.size) (hv : v.length = T.size)
    (hal : s.pos % T.align = 0) (hn : T.size ≤ s.remaining w) :
    ∃ s1, s.iwrite w reporting T v = .ok s1 ∧
      (∀ i, i < T.size → s1.bytes[s.pos + i]? = v[i]?) ∧
      (∀ i, i < s.pos ∨ s.pos + T.size ≤ i → s1.bytes[i]? = s.bytes[i]?) ∧
      s1.size = s.size ∧ s1.data = s.data ∧ s1.pos = s.pos + T.size := by
  have hrem := remaining_eq w s hsz hpos
  rw [hrem] at hn
  have hadd : wadd w s.pos T.size = s.pos + T.size :=
    wadd_of_lt (by simp only [size] at hn hsz hpos; omega)
  refine ⟨{ s with bytes := memcpy s.bytes s.pos v T.size, pos := s.pos + T.size },
    ?_, ?_, ?_, ?_, rfl, rfl⟩
  · cases reporting
    · simp [iwrite, aligned, hal, hrem, hn, hadd, SetPos]
    · simp [iwrite, aligned, hal, verify_remaining, hrem, hn, hadd, SetPos]
  · intro i hi
    exact getElem?_memcpy_inside _ _ _ _ _ hi (by omega)
      (by simp only [size] at hn hpos; omega)
  · intro i hi
    exact getElem?_memcpy_outside _ _ _ _ _ hi
  · simp [size, length_memcpy]

/-- Witness of C4: a 4-byte integer written at offset 0 of a 16-byte region. -/
theorem iwrite_aligned_stores_witness :
    (zero16.size < 2 ^ 32 ∧ zero16.pos ≤ zero16.size ∧ ([1, 2, 3, 4] : List Byte).length = int32.size ∧
      zero16.pos % int32.align = 0 ∧ int32.size ≤ zero16.remaining 32) ∧
    zero16.iwrite 32 false int32 [1, 2, 3, 4] = .ok zero16at4 := by
  have h := iwrite_aligned_stores 32 false zero16 int32 [1, 2, 3, 4] (by decide) (by decide)
    (by decide) (by decide) (by decide)
  refine ⟨⟨by decide, by decide, by decide, by decide, by decide⟩, ?_⟩
  obtain ⟨s1, hw, _⟩ := h
  exact hw.trans (hw.symm.trans (by decide))

/-! ### The invariant `0 ≤ pos ≤ size` -/

theorem seek_inv (reporting : Bool) (s : ostream) (newPos : Nat) (h : s.Inv) (s1 : ostream)
    (h1 : (s.seek reporting newPos).state? = some s1) : s1.Inv := by
  unfold seek at h1
  split at h1
  · split at h1
    · simp only [Outcome.state?, Option.some.injEq] at h1
      exact h1 ▸ h
    · simp only [Outcome.state?, Option.some.injEq] at h1
      subst h1
      exact ⟨Nat.zero_le _, by simp only [SetPos, size] at *; omega⟩
  · split at h1
    · simp only [Outcome.state?, Option.some.injEq] at h1
      subst h1
      exact ⟨Nat.zero_le _, by simp only [SetPos, size] at *; omega⟩
    · simp [Outcome.state?] at h1

theorem write_inv (w : Nat) (reporting : Bool) (s : ostream) (buffer : List Byte) (n : Nat)
    (h : s.Inv) (s1 : ostream) (h1 : (s.write w reporting buffer n).state? = some s1) :
    s1.Inv := by
  have hle := wsub_le (w := w) h.2
  have hadd := wadd_le w s.pos n
  have h2 := h.2
  by_cases hn : n ≤ s.remaining w
  · cases reporting <;>
      simp [write, verify_remaining, hn, Outcome.state?] at h1 <;>
      subst h1 <;>
      exact ⟨Nat.zero_le _, by simp only [size, length_memcpy, remaining] at *; omega⟩
  · cases reporting
    · simp [write, hn, Outcome.state?] at h1
    · simp [write, verify_remaining, hn, Outcome.state?] at h1
      exact h1 ▸ h

theorem iwrite_inv (w : Nat) (reporting : Bool) (s : ostream) (T : PodType) (v : List Byte)
    (h : s.Inv) (s1 : ostream) (h1 : (s.iwrite w reporting T v).state? = some s1) :
    s1.Inv := by
  have hle := wsub_le (w := w) h.2
  have hadd := wadd_le w s.pos T.size
  have h2 := h.2
  by_cases hal : s.pos % T.align = 0
  · by_cases hn : T.size ≤ s.remaining w
    · cases reporting <;>
        simp [iwrite, aligned, hal, verify_remaining, hn, Outcome.state?, SetPos] at h1 <;>
        subst h1 <;>
        exact ⟨Nat.zero_le _, by simp only [size, length_memcpy, remaining] at *; omega⟩
    · cases reporting
      · simp [iwrite, aligned, hal, hn, Outcome.state?] at h1
      · simp [iwrite, aligned, hal, verify_remaining, hn, Outcome.state?] at h1
        exact h1 ▸ h
  · simp [iwrite, aligned, hal, Outcome.state?] at h1

/-- C5: `0 ≤ pos ≤ size` holds for a stream made by any of the three
constructors and after either `relink` (of any stream `s0`), and in the
reporting build every stream left by `seek`, `iseek`, `skip`, `seekp`, `write`,
`iwrite` or `verify_remaining` on a stream `s` that satisfies it satisfies it
again, whether the call succeeded or reported an overrun. -/
theorem pos_le_size_invariant (w : Nat) (s0 s : ostream) (h : s.Inv)
    (p : Nat) (blk : List Byte) (l : memlink) (newPos n : Nat) (off : Int) (d : seekdir)
    (buffer v : List Byte) (T : PodType) (op type : String) :
    (Inv mk0 ∧ Inv (mkPN p blk) ∧ Inv (mkLink l) ∧
      Inv (s0.relink p blk) ∧ Inv (s0.relinkLink l)) ∧
    (∀ s1, (s.seek true newPos).state? = some s1 → s1.Inv) ∧
    (∀ s1, (s.iseek w true newPos).state? = some s1 → s1.Inv) ∧
    (∀ s1, (s.skip w true n).state? = some s1 → s1.Inv) ∧
    (∀ s1, (s.seekp w true off d).state? = some s1 → s1.Inv) ∧
    (∀ s1, (s.write w true buffer n).state? = some s1 → s1.Inv) ∧
    (∀ s1, (s.iwrite w true T v).state? = some s1 → s1.Inv) ∧
    (s.verify_remaining w op type n).s.Inv := by
  refine ⟨⟨?_, ?_, ?_, ?_, ?_⟩, ?_, ?_, ?_, ?_, ?_, ?_, ?_⟩
  · simp [Inv, mk0, size]
  · simp [Inv, mkPN, size]
  · simp [Inv, mkLink, size]
  · simp [Inv, relink, size]
  · simp [Inv, relinkLink, relink, size]
  · exact seek_inv true s newPos h
  · exact seek_inv true s _ h
  · exact seek_inv true s _ h
  · cases d <;> exact seek_inv true s _ h
  · exact write_inv w true s buffer n h
  · exact iwrite_inv w true s T v h
  · simp only [verify_remaining]
    split <;> exact h

/-- Witness of C5: from a stream over four bytes with the cursor at 2, the
successful and the overrunning calls alike leave `pos ≤ size`. -/
theorem pos_le_size_invariant_witness :
    zero4at2.Inv ∧
    (zero4at2.seek true 9).state? = some zero4at2 ∧
    (zero4at2.write 32 true [5, 6] 2).state? = some ⟨⟨100, [0, 0, 5, 6]⟩, 4⟩ ∧
    (∀ s1, (zero4at2.skip 32 true 4294967295).state? = some s1 → s1.Inv) := by
  have h := pos_le_size_invariant 32 zero4at2 zero4at2 (by decide) 0 [] link3 9 4294967295 0
    seekdir.cur [5, 6] [] int32 "" ""
  exact ⟨by decide, by decide, by decide, h.2.2.2.1⟩

/-! ### seek and skip -/

/-- C6, counterexample: a stream over four bytes with the cursor at 2, asked to
seek to 5, reports requested 5, position 2 and 4 in the remaining-capacity
field, which is the size and not the 2 bytes that remain. -/
theorem seek_report_remaining_counterexample :
    zero4at2.pos ≤ zero4at2.size ∧ 5 > zero4at2.size ∧
    zero4at2.seek true 5 = .overrun ⟨"seekp", "byte", 5, 2, 4⟩ zero4at2 ∧
    (zero4at2.seek true 5).report?.map OverrunReport.rem
      ≠ some (zero4at2.size - zero4at2.pos) := by
  decide

/-- C6, amended: for a stream with `pos ≤ size`, `seek (newPos)` sets the cursor
to `newPos` (and nothing else) when `newPos ≤ size`, in either build; otherwise,
in the reporting build, it reports an overrun whose requested value is `newPos`,
whose position is `pos` and whose remaining-capacity field is the region size
`size`, and the stream, cursor included, is as before. -/
theorem seek_sets_or_reports (reporting : Bool) (s : ostream) (newPos : Nat)
    (_hpos : s.pos ≤ s.size) :
    (newPos ≤ s.size →
      s.seek reporting newPos = .ok (s.SetPos newPos) ∧ (s.SetPos newPos).pos = newPos ∧
      (s.SetPos newPos).tomemlink = s.tomemlink) ∧
    (newPos > s.size →
      s.seek true newPos = .overrun ⟨"seekp", "byte", newPos, s.pos, s.size⟩ s) := by
  constructor
  · intro hle
    have hnot : ¬ s.size < newPos := by omega
    cases reporting <;> simp [seek, hle, hnot, SetPos]
  · intro hgt
    simp [seek, hgt]

/-- Witness of C6, amended: seeking to 4 and to 5 in a four-byte region. -/
theorem seek_sets_or_reports_witness :
    zero4at2.pos ≤ zero4at2.size ∧
    zero4at2.seek false 4 = .ok ⟨⟨100, [0, 0, 0, 0]⟩, 4⟩ ∧
    zero4at2.seek true 5 = .overrun ⟨"seekp", "byte", 5, 2, 4⟩ zero4at2 :=
  ⟨by decide,
    ((seek_sets_or_reports false zero4at2 4 (by decide)).1 (by decide)).1,
    (seek_sets_or_reports true zero4at2 5 (by decide)).2 (by decide)⟩

/-- C7, the code at the failing input: on 32-bit words, a stream over eight
bytes with the cursor at 4 has 4 bytes remaining; `skip (4294967294)` asks for
more than that, and yet the call succeeds in both builds and leaves the cursor
at 2, below where it was. -/
theorem skip_wraps_below_pos :
    zero8at4.pos ≤ zero8at4.size ∧ 4294967294 < 2 ^ 32 ∧
    zero8at4.remaining 32 = 4 ∧ 4294967294 > zero8at4.remaining 32 ∧
    zero8at4.skip 32 true 4294967294 = .ok (zero8at4.SetPos 2) ∧
    zero8at4.skip 32 false 4294967294 = .ok (zero8at4.SetPos 2) ∧
    (zero8at4.SetPos 2).pos < zero8at4.pos := by
  decide

/-! ### relink -/

/-- C8: for every stream `s`, whatever its cursor and link, and every region of
`n` bytes at `p` with `n` a machine word, `relink (p, n)` gives a stream linked
to exactly that region, of size `n`, with cursor 0 and `remaining() = n`;
`relink (l)` for a link `l` is `relink (l.data(), l.writable_size())` and so
gives the data pointer of `l`, size `l.writable_size()`, cursor 0 and
`remaining() = l.writable_size()`. -/
theorem relink_resets (w : Nat) (s : ostream) (p : Nat) (blk : List Byte) (l : memlink)
    (hn : blk.length < 2 ^ w) (hl : l.writable_size < 2 ^ w) :
    ((s.relink p blk).data = p ∧ (s.relink p blk).bytes = blk ∧
      (s.relink p blk).size = blk.length ∧ (s.relink p blk).pos = 0 ∧
      (s.relink p blk).remaining w = blk.length) ∧
    (s.relinkLink l = s.relink l.data (l.bytes.take l.writable_size) ∧
      (s.relinkLink l).data = l.data ∧ (s.relinkLink l).bytes = l.bytes ∧
      (s.relinkLink l).size = l.writable_size ∧ (s.relinkLink l).pos = 0 ∧
      (s.relinkLink l).remaining w = l.writable_size) := by
  have hl1 : l.bytes.length < 2 ^ w := hl
  refine ⟨⟨rfl, rfl, rfl, rfl, ?_⟩, rfl, rfl, ?_, ?_, rfl, ?_⟩
  · exact wsub_of_le (Nat.zero_le _) hn
  · simp [relinkLink, relink, memlinkRelink, memlink.writable_size, memlink.size]
  · simp [relinkLink, relink, memlinkRelink, memlink.writable_size, memlink.size, size]
  · have h1 : (s.relinkLink l).size = l.bytes.length := by
      simp [relinkLink, relink, memlinkRelink, memlink.writable_size, memlink.size, size]
    show wsub w (s.relinkLink l).size 0 = l.bytes.length
    rw [h1]
    exact wsub_of_le (Nat.zero_le _) hl1

/-- Witness of C8: a stream with the cursor at 2 relinked to three bytes at
address 200. -/
theorem relink_resets_witness :
    ((([7, 8, 9] : List Byte).length < 2 ^ 32) ∧ link3.writable_size < 2 ^ 32) ∧
    zero4at2.relink 200 [7, 8, 9] = ⟨⟨200, [7, 8, 9]⟩, 0⟩ ∧
    (zero4at2.relink 200 [7, 8, 9]).remaining 32 = 3 ∧
    (zero4at2.relinkLink link3).remaining 32 = 3 := by
  have h := relink_resets 32 zero4at2 200 [7, 8, 9] link3 (by decide) (by decide)
  exact ⟨⟨by decide, by decide⟩, by decide, h.1.2.2.2.2, h.2.2.2.2.2.2⟩

end ostream

end ustl

namespace ustl

/-! ## queue -/

namespace queue

variable {α : Type}

theorem contents_push (q : queue α) (v : α) (hq : q._front ≤ q._storage.length) :
    (q.push v).contents = q.contents ++ [v] := by
  simp only [contents, push]
  exact List.drop_append_of_le_length hq

theorem size_eq (w : Nat) (q : queue α) (hq : q._front ≤ q._storage.length)
    (hw : q._storage.length < 2 ^ w) : q.size w = q.contents.length := by
  simp only [size, contents, List.length_drop]
  exact wsub_of_le hq hw

theorem front_eq (q : queue α) : q.front = q.contents.head? := by
  simp [front, contents]

theorem pop_spec (w : Nat) (q : queue α) (hlt : q._front < q._storage.length)
    (hw : q._storage.length < 2 ^ w) :
    (q.pop w).contents = q.contents.tail ∧
    (q.pop w)._front ≤ (q.pop w)._storage.length ∧
    (q.pop w)._storage.length ≤ q._storage.length := by
  have h1 : wadd w q._front 1 = q._front + 1 := wadd_of_lt (by omega)
  simp only [pop, h1]
  split
  · simp only [contents, List.tail_drop, List.drop_zero, List.length_drop]
    exact ⟨trivial, Nat.zero_le _, Nat.sub_le _ _⟩
  · simp only [contents, List.tail_drop]
    exact ⟨trivial, hlt, Nat.le_refl _⟩

theorem pushAll_spec (q : queue α) (vs : List α) (hq : q._front ≤ q._storage.length) :
    (q.pushAll vs).contents = q.contents ++ vs ∧
    (q.pushAll vs)._front = q._front ∧
    (q.pushAll vs)._storage.length = q._storage.length + vs.length := by
  induction vs generalizing q with
  | nil => simp [pushAll]
  | cons v vs ih =>
    have hq1 : (q.push v)._front ≤ (q.push v)._storage.length := by
      simp only [push, List.length_append, List.length_singleton]
      omega
    obtain ⟨h1, h2, h3⟩ := ih (q.push v) hq1
    simp only [pushAll, List.foldl_cons] at h1 h2 h3 ⊢
    refine ⟨?_, ?_, ?_⟩
    · rw [h1, contents_push q v hq]
      simp
    · rw [h2]
      rfl
    · rw [h3]
      simp only [push, List.length_append, List.length_cons, List.length_nil]
      omega

theorem takeN_spec (w n : Nat) (q : queue α) (hq : q._front ≤ q._storage.length)
    (hw : q._storage.length < 2 ^ w) (hn : q.contents.length = n) :
    (takeN w n q).1 = q.contents ∧ (takeN w n q).2.contents = [] ∧
    (takeN w n q).2._front ≤ (takeN w n q).2._storage.length ∧
    (takeN w n q).2._storage.length < 2 ^ w := by
  induction n generalizing q with
  | zero =>
    have hnil : q.contents = [] := List.length_eq_zero.mp hn
    simp [takeN, hnil, hq, hw]
  | succ n ih =>
    have hlt : q._front < q._storage.length := by
      simp only [contents, List.length_drop] at hn
      omega
    obtain ⟨hc, hf, hl⟩ := pop_spec w q hlt hw
    have hn1 : (q.pop w).contents.length = n := by
      rw [hc, List.length_tail, hn]
      rfl
    obtain ⟨i1, i2, i3, i4⟩ := ih (q.pop w) hf (by omega) hn1
    cases hcs : q.contents with
    | nil => simp [hcs] at hn
    | cons x rest =>
      have hfront : q.front = some x := by rw [front_eq, hcs]; rfl
      simp only [takeN, hfront]
      refine ⟨?_, i2, i3, i4⟩
      rw [i1, hc, hcs]
      rfl

/-- C9: the queue is first-in first-out. With `contents q` the elements of
`_storage` from index `_front` onward, for a queue with
`_front ≤ _storage.size()` whose storage can take one more element:
`contents (push q v) = contents q ++ [v]` and the size grows by 1; when `q` is
not empty, `front q` is the head of `contents q`, `contents (pop q)` is the tail
of `contents q` and the size shrinks by 1; and pushing the values `vs` into an
empty queue and then taking `front` and `pop` as many times gives back `vs` in
order and leaves the queue empty. -/
theorem queue_fifo (w : Nat) (q : queue α) (v : α) (vs : List α)
    (hq : q._front ≤ q._storage.length) (hw : q._storage.length + 1 < 2 ^ w)
    (hvs : vs.length < 2 ^ w) :
    ((q.push v).contents = q.contents ++ [v] ∧ (q.push v).size w = q.size w + 1) ∧
    (q.empty w = false →
      (∃ x, q.front = some x ∧ q.contents.head? = some x) ∧
      (q.pop w).contents = q.contents.tail ∧ (q.pop w).size w = q.size w - 1) ∧
    ((takeN w vs.length (pushAll mk0 vs)).1 = vs ∧
      (takeN w vs.length (pushAll mk0 vs)).2.empty w = true ∧
      (takeN w vs.length (pushAll mk0 vs)).2.contents = []) := by
  have hw1 : q._storage.length < 2 ^ w := by omega
  have hsz := size_eq w q hq hw1
  refine ⟨⟨contents_push q v hq, ?_⟩, ?_, ?_⟩
  · have hq1 : (q.push v)._front ≤ (q.push v)._storage.length := by
      simp only [push, List.length_append, List.length_singleton]
      omega
    have hw2 : (q.push v)._storage.length < 2 ^ w := by
      simp only [push, List.length_append, List.length_singleton]
      omega
    rw [size_eq w _ hq1 hw2, hsz, contents_push q v hq]
    simp
  · intro hne
    have hpos : q.size w ≠ 0 := by simpa [empty] using hne
    have hlt : q._front < q._storage.length := by
      rw [hsz] at hpos
      simp only [contents, List.length_drop] at hpos
      omega
    obtain ⟨hc, hf, hl⟩ := pop_spec w q hlt hw1
    refine ⟨?_, hc, ?_⟩
    · cases hcs : q.contents with
      | nil => rw [hsz, hcs] at hpos; simp at hpos
      | cons x rest => exact ⟨x, by rw [front_eq, hcs]; rfl, rfl⟩
    · rw [size_eq w _ hf (by omega), hsz, hc, List.length_tail]
  · obtain ⟨p1, p2, p3⟩ := pushAll_spec (mk0 : queue α) vs (by simp [mk0])
    have hc0 : (pushAll mk0 vs : queue α).contents = vs := by
      rw [p1]
      simp [contents, mk0]
    have hq0 : (pushAll mk0 vs : queue α)._front ≤ (pushAll mk0 vs : queue α)._storage.length := by
      rw [p2]
      simp [mk0]
    have hw0 : (pushAll mk0 vs : queue α)._storage.length < 2 ^ w := by
      rw [p3]
      simpa [mk0] using hvs
    obtain ⟨t1, t2, t3, t4⟩ := takeN_spec w vs.length (pushAll mk0 vs) hq0 hw0 (by rw [hc0])
    refine ⟨by rw [t1, hc0], ?_, t2⟩
    have := size_eq w _ t3 t4
    rw [t2] at this
    simp [empty, this]

/-- Witness of C9: the values 1, 2, 3 pushed into an empty queue come back as
1, 2, 3 and leave it empty; a queue holding 6, 7 gives 6 at the front. -/
theorem queue_fifo_witness :
    (queueEx._front ≤ queueEx._storage.length ∧ queueEx._storage.length + 1 < 2 ^ 32 ∧
      [1, 2, 3].length < 2 ^ 32 ∧ queueEx.empty 32 = false) ∧
    (queueEx.push 9).contents = [6, 7, 9] ∧
    queueEx.front = some 6 ∧ (queueEx.pop 32).contents = [7] ∧
    takeN 32 3 (pushAll mk0 [1, 2, 3]) = ([1, 2, 3], mk0) ∧
    (takeN 32 [1, 2, 3].length (pushAll mk0 [1, 2, 3])).2.empty 32 = true := by
  have h := queue_fifo 32 queueEx 9 [1, 2, 3] (by decide) (by decide) (by decide)
  exact ⟨⟨by decide, by decide, by decide, by decide⟩, by decide, by decide, by decide,
    by decide, h.2.2.2.1⟩

end queue

/-! ## exception -/

namespace exception

/-- C10, counterexample: for the base exception built around a backtrace whose
stream size is 16, `stream_size()` is 24, which is `8 + 16` and not `4 + 16`. -/
theorem stream_size_counterexample :
    (mk0 btEx).stream_size 32 btSize32 = 24 ∧
    (mk0 btEx).stream_size 32 btSize32 ≠ 4 + btSize32 (mk0 btEx).backtrace := by
  decide

/-- C10, amended: for every base exception `e`, `stream_size()` is
`8 + backtrace().stream_size()`, the sizes of two `uint32` fields (the format
tag and one more) and of the backtrace block, whenever that sum is a machine
word. -/
theorem stream_size_eq (w : Nat) (btSize : CBacktrace → Nat) (e : exception)
    (hw : 8 + btSize e.backtrace < 2 ^ w) :
    e.stream_size w btSize = 8 + btSize e.backtrace := by
  have h8 : wadd w sizeof_uint32 sizeof_uint32 = 8 :=
    wadd_of_lt (by simp only [sizeof_uint32]; omega)
  simp only [stream_size, h8]
  exact wadd_of_lt hw

/-- Witness of C10, amended: a backtrace of stream size 16 gives 24. -/
theorem stream_size_eq_witness :
    8 + btSize32 (mk0 btEx).backtrace < 2 ^ 32 ∧
    (mk0 btEx).stream_size 32 btSize32 = 8 + btSize32 (mk0 btEx).backtrace :=
  ⟨by decide, stream_size_eq 32 btSize32 (mk0 btEx) (by decide)⟩

end exception

end ustl

namespace ustl

/-! ## Kinds of exception -/

namespace ExceptionObject

/-- C11, counterexample: a default-constructed `exception` and a
default-constructed `bad_cast` are of different kinds (and answer `what()`
differently), yet `format()` returns the same tag for both. -/
theorem format_same_across_kinds_counterexample :
    (default .exception btEx).kind ≠ (default .bad_cast btEx).kind ∧
    (default .exception btEx).what ≠ (default .bad_cast btEx).what ∧
    (default .exception btEx).format = (default .bad_cast btEx).format := by
  decide

/-- C11, amended: a default-constructed exception of any of the kinds base
exception, `bad_cast`, `bad_typeid` has that kind and the tag `xfmt_Exception`,
so any two of them have equal tags; the tag tells them apart only from kinds
that set a tag of their own, such as `xfmt_BadAlloc`, which differs from
`xfmt_Exception`. -/
theorem format_default (k1 k2 : ExceptionKind) (bt1 bt2 : CBacktrace) :
    (default k1 bt1).kind = k1 ∧ (default k1 bt1).format = xfmt_Exception ∧
    (default k1 bt1).format = (default k2 bt2).format ∧
    xfmt_Exception ≠ xfmt_BadAlloc := by
  refine ⟨?_, ?_, ?_, by decide⟩
  · cases k1 <;> rfl
  · cases k1 <;> rfl
  · cases k1 <;> cases k2 <;> rfl

end ExceptionObject

/-! ## More on machine words -/

theorem toWord_natCast (w n : Nat) (h : n < 2 ^ w) : toWord w (n : Int) = n := by
  unfold toWord
  have h1 : ((n : Int) % (2 : Int) ^ w) = ((n % 2 ^ w : Nat) : Int) := by
    push_cast
    rfl
  rw [h1, Nat.mod_eq_of_lt h]
  rfl

theorem wsub_mod_of_le {w a b : Nat} (hb : b < 2 ^ w) (hba : b ≤ a) (hd : a - b < 2 ^ w) :
    wsub w (a % 2 ^ w) b = a - b := by
  by_cases ha : a < 2 ^ w
  · rw [Nat.mod_eq_of_lt ha]
    exact wsub_of_le hba ha
  · have h1 : a % 2 ^ w = a - 2 ^ w := by
      rw [Nat.mod_eq_sub_mod (by omega), Nat.mod_eq_of_lt (by omega)]
    unfold wsub
    rw [h1]
    have h2 : a - 2 ^ w + 2 ^ w - b = a - b := by omega
    rw [h2]
    exact Nat.mod_eq_of_lt hd

theorem roundup_spec (n g : Nat) (hg : 0 < g) :
    n ≤ (n + g - 1) / g * g ∧ (n + g - 1) / g * g < n + g ∧ ((n + g - 1) / g * g) % g = 0 := by
  have h1 := Nat.div_add_mod (n + g - 1) g
  have h2 := Nat.mod_lt (n + g - 1) hg
  have h3 : (n + g - 1) / g * g = g * ((n + g - 1) / g) := Nat.mul_comm _ _
  refine ⟨by omega, by omega, ?_⟩
  exact Nat.mul_mod_left _ _

namespace ostream

/-! ### Shared facts on `write` and `iwrite` -/

theorem write_ok (w : Nat) (reporting : Bool) (s : ostream) (buffer : List Byte) (n : Nat)
    (hsz : s.size < 2 ^ w) (hpos : s.pos ≤ s.size) (hn : n ≤ s.size - s.pos) :
    s.write w reporting buffer n
      = .ok ⟨⟨s.data, memcpy s.bytes s.pos buffer n⟩, s.pos + n⟩ := by
  have hrem := remaining_eq w s hsz hpos
  have hadd : wadd w s.pos n = s.pos + n := wadd_of_lt (by omega)
  cases reporting
  · simp [write, hrem, hn, hadd]
  · simp [write, verify_remaining, hrem, hn, hadd]

theorem iwrite_ok (w : Nat) (reporting : Bool) (s : ostream) (T : PodType) (v : List Byte)
    (hsz : s.size < 2 ^ w) (hpos : s.pos ≤ s.size) (hal : s.pos % T.align = 0)
    (hn : T.size ≤ s.size - s.pos) :
    s.iwrite w reporting T v
      = .ok ⟨⟨s.data, memcpy s.bytes s.pos v T.size⟩, s.pos + T.size⟩ := by
  have hrem := remaining_eq w s hsz hpos
  have hadd : wadd w s.pos T.size = s.pos + T.size := wadd_of_lt (by omega)
  cases reporting
  · simp [iwrite, aligned, hal, hrem, hn, hadd, SetPos]
  · simp [iwrite, aligned, hal, verify_remaining, hrem, hn, hadd, SetPos]

/-! ### A stream written into a stream -/

/-- C12: for a source stream `s` with `s.pos ≤ s.size` and a target stream `os`
(with its own `pos ≤ size`, the size a machine word) such that
`os.remaining() ≥ s.pos()`, `s.write (os)` succeeds in either build, advances the
cursor of `os` by exactly `s.stream_size()`, which is `s.pos()`, leaves the first
`s.pos()` bytes of the region of `s` in `os` from the old cursor of `os` on,
changes no other byte and not the size of `os`, and leaves `s`, cursor and
region, as it was. -/
theorem write_ostream_exact_size (w : Nat) (reporting : Bool) (s os : ostream)
    (hs : s.pos ≤ s.size) (hsz : os.size < 2 ^ w) (hos : os.pos ≤ os.size)
    (hrem : os.remaining w ≥ s.pos) :
    s.stream_size = s.pos ∧ (write_ostream w reporting s os).1 = s ∧
    ∃ os1, (write_ostream w reporting s os).2 = .ok os1 ∧
      os1.pos = os.pos + s.stream_size ∧
      (∀ i, i < s.pos → os1.bytes[os.pos + i]? = s.bytes[i]?) ∧
      (∀ i, i < os.pos ∨ os.pos + s.pos ≤ i → os1.bytes[i]? = os.bytes[i]?) ∧
      os1.size = os.size := by
  rw [remaining_eq w os hsz hos] at hrem
  refine ⟨rfl, rfl, _, write_ok w reporting os s.bytes s.pos hsz hos hrem, rfl, ?_, ?_, ?_⟩
  · intro i hi
    exact getElem?_memcpy_inside _ _ _ _ _ hi hs (by simp only [size] at hrem hos; omega)
  · intro i hi
    exact getElem?_memcpy_outside _ _ _ _ _ hi
  · simp [size, length_memcpy]

/-- Witness of C12: a stream holding `1 2 3` written into an eight-byte stream
at cursor 4. -/
theorem write_ostream_exact_size_witness :
    (src6at3.pos ≤ src6at3.size ∧ zero8at4.size < 2 ^ 32 ∧ zero8at4.pos ≤ zero8at4.size ∧
      zero8at4.remaining 32 ≥ src6at3.pos) ∧
    write_ostream 32 true src6at3 zero8at4
      = (src6at3, .ok ⟨⟨100, [0, 0, 0, 0, 1, 2, 3, 0]⟩, 7⟩) := by
  have h := write_ostream_exact_size 32 true src6at3 zero8at4 (by decide) (by decide)
    (by decide) (by decide)
  exact ⟨⟨by decide, by decide, by decide, by decide⟩, Prod.ext h.2.1 (by decide)⟩

/-! ### Alignment -/

/-- C13: for a cursor `pos` and a grain with `0 < grain`, both machine words,
`align_size (grain)` is the padding to the next multiple of `grain`:
`0 ≤ align_size (grain) < grain`, `(pos + align_size (grain)) % grain = 0`, and
`aligned (grain)` is true exactly when `align_size (grain) = 0`. -/
theorem align_size_spec (w : Nat) (s : ostream) (grain : Nat)
    (hpos : s.pos < 2 ^ w) (hg : 0 < grain) (hgw : grain < 2 ^ w) :
    (0 ≤ s.align_size w grain ∧ s.align_size w grain < grain) ∧
    (s.pos + s.align_size w grain) % grain = 0 ∧
    (s.aligned grain = true ↔ s.align_size w grain = 0) := by
  obtain ⟨h1, h2, h3⟩ := roundup_spec s.pos grain hg
  have hsz : s.align_size w grain = (s.pos + grain - 1) / grain * grain - s.pos := by
    unfold align_size Align
    exact wsub_mod_of_le hpos h1 (by omega)
  rw [hsz]
  refine ⟨⟨Nat.zero_le _, by omega⟩, ?_, ?_⟩
  · rw [Nat.add_sub_cancel' h1]
    exact h3
  · simp only [aligned, beq_iff_eq]
    constructor
    · intro hal
      have h4 : ((s.pos + grain - 1) / grain * grain - s.pos) % grain = 0 :=
        Nat.sub_mod_eq_zero_of_mod_eq (by rw [h3, hal])
      rw [Nat.mod_eq_of_lt (by omega)] at h4
      exact h4
    · intro h0
      have h5 : (s.pos + grain - 1) / grain * grain = s.pos := by omega
      rw [← h5]
      exact h3

/-- Witness of C13: at cursor 5 the padding to a multiple of 4 is 3. -/
theorem align_size_spec_witness :
    (zero8at5.pos < 2 ^ 32 ∧ 0 < 4 ∧ 4 < 2 ^ 32) ∧
    zero8at5.align_size 32 4 = 3 ∧ (zero8at5.pos + zero8at5.align_size 32 4) % 4 = 0 ∧
    (zero8at5.aligned 4 = true ↔ zero8at5.align_size 32 4 = 0) := by
  have h := align_size_spec 32 zero8at5 4 (by decide) (by decide) (by decide)
  exact ⟨⟨by decide, by decide, by decide⟩, by decide, h.2.1, h.2.2⟩

end ostream

end ustl

namespace ustl

namespace ostream

/-! ### seekp -/

theorem seek_ok (reporting : Bool) (s : ostream) (newPos : Nat) (h : newPos ≤ s.size) :
    s.seek reporting newPos = .ok (s.SetPos newPos) := by
  have hnot : ¬ s.size < newPos := by omega
  cases reporting <;> simp [seek, h, hnot]

/-- C14: for a stream with `pos ≤ size` (the size a machine word) and an offset
`p`, `seekp (p, d)` is `seek (t)` for the target `t = p` from the beginning,
`t = pos + p` from the current position and `t = size - p` from the end;
whenever `0 ≤ t ≤ size` the call succeeds, the cursor becomes `t`, `tellp()`
returns `t` and the link with its bytes is unchanged; `seekp (0, cur)` leaves
the stream as it is and `seekp (0, end)` puts the cursor at `size`. -/
theorem seekp_as_seek (w : Nat) (reporting : Bool) (s : ostream) (p : Int) (d : seekdir)
    (hsz : s.size < 2 ^ w) (hpos : s.pos ≤ s.size) :
    s.seekp w reporting p d = s.seek reporting (toWord w (s.seekp_target p d)) ∧
    (0 ≤ s.seekp_target p d → s.seekp_target p d ≤ s.size →
      s.seekp w reporting p d = .ok (s.SetPos (s.seekp_target p d).toNat) ∧
      ((s.SetPos (s.seekp_target p d).toNat).tellp : Int) = s.seekp_target p d ∧
      (s.SetPos (s.seekp_target p d).toNat).tomemlink = s.tomemlink) ∧
    s.seekp w reporting 0 .cur = .ok s ∧
    s.seekp w reporting 0 .end_ = .ok (s.SetPos s.size) := by
  have hdef : ∀ q : Int, ∀ e : seekdir,
      s.seekp w reporting q e = s.seek reporting (toWord w (s.seekp_target q e)) := by
    intro q e
    cases e <;> rfl
  refine ⟨hdef p d, ?_, ?_, ?_⟩
  · intro h0 hle
    obtain ⟨t, ht⟩ := Int.eq_ofNat_of_zero_le h0
    rw [hdef]
    rw [ht] at hle ⊢
    have htle : t ≤ s.size := by exact_mod_cast hle
    rw [toWord_natCast w t (by omega), Int.toNat_ofNat]
    exact ⟨seek_ok reporting s t htle, rfl, rfl⟩
  · rw [hdef]
    have h1 : s.seekp_target 0 .cur = (s.pos : Int) := by simp [seekp_target]
    rw [h1, toWord_natCast w s.pos (by omega)]
    exact seek_ok reporting s s.pos hpos
  · rw [hdef]
    have h1 : s.seekp_target 0 .end_ = (s.size : Int) := by simp [seekp_target]
    rw [h1, toWord_natCast w s.size hsz]
    exact seek_ok reporting s s.size (Nat.le_refl _)

/-- Witness of C14: in an eight-byte region with the cursor at 5, `seekp (-2, cur)`
goes to 3, `seekp (2, end)` to 6 and `seekp (0, end)` to 8. -/
theorem seekp_as_seek_witness :
    (zero8at5.size < 2 ^ 32 ∧ zero8at5.pos ≤ zero8at5.size ∧
      0 ≤ zero8at5.seekp_target (-2) .cur ∧ zero8at5.seekp_target (-2) .cur ≤ zero8at5.size) ∧
    zero8at5.seekp 32 true (-2) .cur = .ok (zero8at5.SetPos 3) ∧
    zero8at5.seekp 32 true 2 .end_ = .ok (zero8at5.SetPos 6) ∧
    zero8at5.seekp 32 true 0 .cur = .ok zero8at5 ∧
    zero8at5.seekp 32 true 0 .end_ = .ok (zero8at5.SetPos 8) := by
  have h := seekp_as_seek 32 true zero8at5 (-2) .cur (by decide) (by decide)
  exact ⟨⟨by decide, by decide, by decide, by decide⟩,
    (h.2.1 (by decide) (by decide)).1, by decide, h.2.2.1, h.2.2.2⟩

/-! ### operator<< -/

theorem op_shl_chain_integral (w : Nat) (reporting : Bool) (T : PodType)
    (vs : List (List Byte)) (os : ostream) :
    op_shl_chain w reporting os (vs.map (StreamValue.integral T))
      = iwrite_each w reporting T os vs := by
  induction vs generalizing os with
  | nil => rfl
  | cons v vs ih =>
    simp only [List.map_cons, op_shl_chain, iwrite_each, op_shl, integral_object_writer]
    cases os.iwrite w reporting T v with
    | ok os1 => exact ih os1
    | overrun r s1 => rfl
    | assertFail => rfl

theorem iwrite_each_layout (w : Nat) (reporting : Bool) (T : PodType)
    (vs : List (List Byte)) (os : ostream)
    (hT : T.align = T.size) (hvs : ∀ v ∈ vs, v.length = T.size)
    (hsz : os.size < 2 ^ w) (hal : os.pos % T.size = 0)
    (hfit : os.pos + vs.length * T.size ≤ os.size) :
    ∃ os1, iwrite_each w reporting T os vs = .ok os1 ∧
      os1.pos = os.pos + vs.length * T.size ∧ os1.size = os.size ∧
      (∀ x, x < os.pos → os1.bytes[x]? = os.bytes[x]?) ∧
      (∀ i j v, vs[i]? = some v → j < T.size →
        os1.bytes[os.pos + i * T.size + j]? = v[j]?) := by
  induction vs generalizing os with
  | nil =>
    refine ⟨os, rfl, by simp, rfl, fun _ _ => rfl, ?_⟩
    intro i j v hv
    simp at hv
  | cons v vs ih =>
    have hmul : (vs.length + 1) * T.size = vs.length * T.size + T.size := Nat.succ_mul _ _
    simp only [List.length_cons, hmul] at hfit
    have hv : v.length = T.size := hvs v (List.mem_cons_self _ _)
    have hw1 := iwrite_ok w reporting os T v hsz (by omega) (by rw [hT]; exact hal) (by omega)
    have hsz1 : (⟨⟨os.data, memcpy os.bytes os.pos v T.size⟩, os.pos + T.size⟩ : ostream).size
        = os.size := by simp [size, length_memcpy]
    obtain ⟨os1, h1, h2, h3, h4, h5⟩ :=
      ih ⟨⟨os.data, memcpy os.bytes os.pos v T.size⟩, os.pos + T.size⟩
        (fun u hu => hvs u (List.mem_cons_of_mem _ hu))
        (by rw [hsz1]; exact hsz)
        (by show (os.pos + T.size) % T.size = 0; rw [Nat.add_mod_right]; exact hal)
        (by rw [hsz1]; show os.pos + T.size + vs.length * T.size ≤ os.size; omega)
    simp only at h2 h4 h5
    refine ⟨os1, ?_, ?_, ?_, ?_, ?_⟩
    · simp only [iwrite_each, hw1]
      exact h1
    · rw [h2, List.length_cons, hmul]
      omega
    · rw [h3, hsz1]
    · intro x hx
      rw [h4 x (by omega)]
      exact getElem?_memcpy_outside _ _ _ _ _ (Or.inl hx)
    · intro i j u hu hj
      cases i with
      | zero =>
        simp only [List.getElem?_cons_zero, Option.some.injEq] at hu
        subst hu
        rw [Nat.zero_mul, Nat.add_zero, h4 (os.pos + j) (by omega)]
        exact getElem?_memcpy_inside _ _ _ _ _ hj (by omega) (by simp only [size] at hfit; omega)
      | succ i =>
        simp only [List.getElem?_cons_succ] at hu
        have h6 := h5 i j u hu hj
        have hidx : os.pos + (i + 1) * T.size + j = os.pos + T.size + i * T.size + j := by
          rw [Nat.succ_mul]
          omega
        rw [hidx]
        exact h6

/-- C15: for values `vs` of one integral type `T` with
`sizeof (T) = align (T)`, each given by its `sizeof (T)` bytes, and a stream at
cursor 0 over a region of at least `k * sizeof (T)` bytes, `k` the number of
values, the chain `os << vs[0] << vs[1] << ...` is the sequence of `iwrite` calls
on the same values; every write succeeds, the final cursor is
`k * sizeof (T)`, and for each `i < k` the bytes at
`[i * sizeof (T), (i + 1) * sizeof (T))` are the bytes of `vs[i]`. -/
theorem op_shl_chain_layout (w : Nat) (reporting : Bool) (T : PodType)
    (vs : List (List Byte)) (os : ostream)
    (hT : T.align = T.size) (hvs : ∀ v ∈ vs, v.length = T.size)
    (hsz : os.size < 2 ^ w) (h0 : os.pos = 0) (hfit : vs.length * T.size ≤ os.size) :
    op_shl_chain w reporting os (vs.map (StreamValue.integral T))
      = iwrite_each w reporting T os vs ∧
    ∃ os1, op_shl_chain w reporting os (vs.map (StreamValue.integral T)) = .ok os1 ∧
      os1.pos = vs.length * T.size ∧ os1.size = os.size ∧
      (∀ i j v, vs[i]? = some v → j < T.size → os1.bytes[i * T.size + j]? = v[j]?) := by
  have heq := op_shl_chain_integral w reporting T vs os
  obtain ⟨os1, h1, h2, h3, _, h5⟩ := iwrite_each_layout w reporting T vs os hT hvs hsz
    (by rw [h0]; exact Nat.zero_mod _) (by rw [h0]; omega)
  refine ⟨heq, os1, heq.trans h1, by rw [h2, h0]; omega, h3, ?_⟩
  intro i j v hv hj
  have h6 := h5 i j v hv hj
  rw [h0, Nat.zero_add] at h6
  exact h6

/-- Witness of C15: three 2-byte integers written into a fresh sixteen-byte
region lie back to back in the first six bytes. -/
theorem op_shl_chain_layout_witness :
    (int16.align = int16.size ∧
      (∀ v ∈ ([[1, 2], [3, 4], [5, 6]] : List (List Byte)), v.length = int16.size) ∧
      zero16.size < 2 ^ 32 ∧ zero16.pos = 0 ∧
      ([[1, 2], [3, 4], [5, 6]] : List (List Byte)).length * int16.size ≤ zero16.size) ∧
    op_shl_chain 32 true zero16
        (([[1, 2], [3, 4], [5, 6]] : List (List Byte)).map (StreamValue.integral int16))
      = iwrite_each 32 true int16 zero16 [[1, 2], [3, 4], [5, 6]] ∧
    iwrite_each 32 true int16 zero16 [[1, 2], [3, 4], [5, 6]]
      = .ok ⟨⟨64, [1, 2, 3, 4, 5, 6, 0, 0, 0, 0, 0, 0, 0, 0, 0, 0]⟩, 6⟩ := by
  have hvs : ∀ v ∈ ([[1, 2], [3, 4], [5, 6]] : List (List Byte)), v.length = int16.size := by
    decide
  have h := op_shl_chain_layout 32 true int16 [[1, 2], [3, 4], [5, 6]] zero16 (by decide) hvs
    (by decide) (by decide) (by decide)
  exact ⟨⟨by decide, hvs, by decide, by decide, by decide⟩, h.1, by decide⟩

/-! ### Overruns change nothing -/

/-- C16: in the reporting build, for a stream with `pos ≤ size`, whenever
`write (buffer, n)`, an aligned `iwrite (v)` or `seek (newPos)` reports an
overrun, the stream it leaves is the stream it found: same cursor, same size,
same bytes. -/
theorem overrun_is_atomic (w : Nat) (s : ostream) (buffer : List Byte) (n : Nat)
    (T : PodType) (v : List Byte) (newPos : Nat) (r : OverrunReport) (s1 : ostream)
    (_hpos : s.pos ≤ s.size) :
    (s.write w true buffer n = .overrun r s1 → s1 = s) ∧
    (s.pos % T.align = 0 → s.iwrite w true T v = .overrun r s1 → s1 = s) ∧
    (s.seek true newPos = .overrun r s1 → s1 = s) := by
  refine ⟨?_, ?_, ?_⟩
  · intro h
    by_cases hn : n ≤ s.remaining w
    · simp [write, verify_remaining, hn] at h
    · simp [write, verify_remaining, hn] at h
      exact h.2.symm
  · intro hal h
    by_cases hn : T.size ≤ s.remaining w
    · simp [iwrite, aligned, hal, verify_remaining, hn] at h
    · simp [iwrite, aligned, hal, verify_remaining, hn] at h
      exact h.2.symm
  · intro h
    by_cases hn : newPos ≤ s.size
    · have hnot : ¬ s.size < newPos := by omega
      simp [seek, hnot] at h
    · have hgt : s.size < newPos := by omega
      simp [seek, hgt] at h
      exact h.2.symm

/-- Witness of C16: on a fresh four-byte region an 8-byte `write`, an aligned
8-byte `iwrite` and a `seek` to 5 all report an overrun and leave that stream. -/
theorem overrun_is_atomic_witness :
    (zero4.pos ≤ zero4.size ∧ zero4.pos % int64.align = 0) ∧
    zero4.write 32 true [1, 2, 3, 4, 5, 6, 7, 8] 8
      = .overrun ⟨"write", "binary data", 8, 0, 4⟩ zero4 ∧
    zero4.iwrite 32 true int64 [1, 2, 3, 4, 5, 6, 7, 8]
      = .overrun ⟨"write", "x", 8, 0, 4⟩ zero4 ∧
    zero4.seek true 5 = .overrun ⟨"seekp", "byte", 5, 0, 4⟩ zero4 ∧
    (∀ r s1, zero4.iwrite 32 true int64 [1, 2, 3, 4, 5, 6, 7, 8] = .overrun r s1 →
      s1 = zero4) := by
  refine ⟨⟨by decide, by decide⟩, by decide, by decide, by decide, ?_⟩
  intro r s1
  exact (overrun_is_atomic 32 zero4 [1, 2, 3, 4, 5, 6, 7, 8] 8 int64 [1, 2, 3, 4, 5, 6, 7, 8]
    5 r s1 (by decide)).2.1 (by decide)

end ostream

/-! ## More on the queue -/

namespace queue

variable {α : Type}

/-- C17: the predicate `_front ≤ _storage.size() / 2` holds for a queue built by
the default constructor or from a container, and for a queue `q` that satisfies
it (its storage size a machine word) it holds again after `push`, after
`emplace`, and after `pop` when `q` is not empty; it gives
`_front ≤ _storage.size()`, so that `size()` is `_storage.size() - _front`
without wrapping. -/
theorem front_half_invariant (w : Nat) (q : queue α) (s : List α) (v : α)
    (h : q.HalfInv) (hw : q._storage.length < 2 ^ w) :
    (HalfInv (mk0 : queue α) ∧ HalfInv (ofContainer s)) ∧
    HalfInv (q.push v) ∧ HalfInv (q.emplace v) ∧
    (q.empty w = false → HalfInv (q.pop w)) ∧
    q._front ≤ q._storage.length ∧ q.size w = q._storage.length - q._front := by
  unfold HalfInv at *
  have hle : q._front ≤ q._storage.length := by omega
  refine ⟨⟨by simp [mk0], by simp [ofContainer]⟩, ?_, ?_, ?_, hle, wsub_of_le hle hw⟩
  · simp only [push, List.length_append, List.length_singleton]
    omega
  · simp only [emplace, List.length_append, List.length_singleton]
    omega
  · intro _
    simp only [pop]
    split
    · exact Nat.zero_le _
    · simp only
      omega

/-- Witness of C17: a queue of four elements with one popped keeps the
predicate through a push and a pop. -/
theorem front_half_invariant_witness :
    (queue1234popped.HalfInv ∧ queue1234popped._storage.length < 2 ^ 32 ∧
      queue1234popped.empty 32 = false) ∧
    (queue1234popped.push 5).HalfInv ∧ (queue1234popped.pop 32).HalfInv ∧
    queue1234popped.pop 32 = ⟨[1, 2, 3, 4], 2⟩ ∧
    (queue1234popped.pop 32).pop 32 = ⟨[4], 0⟩ := by
  have h := front_half_invariant 32 queue1234popped [] 5 (by decide) (by decide)
  exact ⟨⟨by decide, by decide, by decide⟩, h.2.1, h.2.2.2.1 (by decide), by decide, by decide⟩

/-- C18, the code at the failing input: the queue reached by pushing 1, 2, 3, 4
and popping once holds 2, 3, 4 behind `_front = 1`; its copy has the same
storage and `_front = 0`, so the copy has size 4 instead of 3, front 1 instead
of 2, and gives 1, 2, 3, 4 under `front` and `pop` where the original gives
2, 3, 4. -/
theorem copy_brings_back_popped :
    queue1234popped = ⟨[1, 2, 3, 4], 1⟩ ∧ queue1234popped.copy = ⟨[1, 2, 3, 4], 0⟩ ∧
    queue1234popped.size 32 = 3 ∧ queue1234popped.copy.size 32 = 4 ∧
    queue1234popped.front = some 2 ∧ queue1234popped.copy.front = some 1 ∧
    (takeN 32 4 queue1234popped).1 = [2, 3, 4] ∧
    (takeN 32 4 queue1234popped.copy).1 = [1, 2, 3, 4] := by
  decide

end queue

end ustl
